import Mathlib

/-!
Verification of the Markdown-to-block translation engine of the Notionate
repository (file src/pages.py): the inline formatter
(the loop of md_token_to_rich_text), the block compiler
(the while-loop of markdown_to_notion_blocks), and the front-matter
splitter (parse_markdown_file).  Python dictionaries describing rich-text
spans and blocks are modelled as Lean structures and inductive types;
machine behaviour that can raise an IndexError (indexing past the end of
the token stream) is modelled by an Option result, none standing for the
raised exception.  The tokenizer (markdown-it) is an external collaborator:
the engine is modelled as a function of the token stream.
-/

namespace Notionate

/-- The set of style flags a span can carry.  The Python code stores them as
a dictionary whose keys (bold, italic, code) are only ever present with the
value True; a record of three Booleans represents the same information. -/
structure Annotations where
  bold : Bool
  italic : Bool
  code : Bool
deriving DecidableEq, Repr

/-- One Notion rich-text object as built by the inline formatter:
the text content, the optional link url attached to the text, and the
optional style dictionary (none when the Python dict would omit the
annotations field entirely, i.e. when the active set is empty). -/
structure RichTextObj where
  content : String
  link : Option String
  annotations : Option Annotations
deriving DecidableEq, Repr

/-- The inline child kinds read by the engine (children of a markdown-it
inline token).  Kinds the source never inspects are collapsed into
other: the Python loop falls through every elif for them. -/
inductive Inline where
  | text (content : String)
  | strong_open
  | strong_close
  | em_open
  | em_close
  | code_inline (content : String)
  | link_open (href : String)
  | link_close
  | image (src : String)
  | other
deriving DecidableEq, Repr

/-- The mutable active_annotations dictionary of the inline formatter:
only the keys bold and italic are ever inserted (always with value True),
so the dictionary is a pair of Booleans; the dictionary is empty exactly
when both are false. -/
structure ActiveAnn where
  bold : Bool
  italic : Bool
deriving DecidableEq, Repr

/-- The annotations value placed on a text span: a copy of the active
dictionary, omitted (none) when the dictionary is empty
(the Python test if annotations:). -/
def spanAnnotations (act : ActiveAnn) : Option Annotations :=
  if act.bold || act.italic then some { bold := act.bold, italic := act.italic, code := false }
  else none

/-- The link attached to a text span: the Python test if link_url: is
truthiness, so an empty href behaves like no link. -/
def linkVal : Option String → Option String
  | some s => if s = "" then none else some s
  | none => none

/-- The for-loop of md_token_to_rich_text: scans the inline children left
to right carrying the active annotation dictionary and the current link
url, emitting one span per non-empty text child and one code-flagged span
per code_inline child. -/
def richTextLoop : List Inline → ActiveAnn → Option String → List RichTextObj
  | [], _, _ => []
  | c :: cs, act, link =>
    match c with
    | .text content =>
        if content = "" then richTextLoop cs act link
        else { content := content, link := linkVal link,
               annotations := spanAnnotations act } :: richTextLoop cs act link
    | .strong_open => richTextLoop cs { act with bold := true } link
    | .strong_close => richTextLoop cs { act with bold := false } link
    | .em_open => richTextLoop cs { act with italic := true } link
    | .em_close => richTextLoop cs { act with italic := false } link
    | .code_inline content =>
        { content := content, link := none,
          annotations := some { bold := false, italic := false, code := true } }
          :: richTextLoop cs act link
    | .link_open href => richTextLoop cs act (some href)
    | .link_close => richTextLoop cs act none
    | .image _ => richTextLoop cs act link
    | .other => richTextLoop cs act link

/-- The block-level token kinds read by the engine (markdown-it token
types).  heading_open carries the numeric heading level taken from its
h-tag; fence carries its raw body and info string; inline carries its
children.  Kinds the dispatch never inspects still appear so that real
streams are representable; other stands for any further kind. -/
inductive Token where
  | heading_open (level : Nat)
  | heading_close
  | inline (children : List Inline)
  | paragraph_open
  | paragraph_close
  | bullet_list_open
  | bullet_list_close
  | ordered_list_open
  | ordered_list_close
  | list_item_open
  | list_item_close
  | fence (content : String) (info : String)
  | blockquote_open
  | blockquote_close
  | hr
  | table_open
  | table_close
  | thead_open
  | thead_close
  | tbody_open
  | tbody_close
  | tr_open
  | tr_close
  | th_open
  | th_close
  | td_open
  | td_close
  | other
deriving DecidableEq, Repr

/-- token.children of markdown-it: a list for inline tokens, None
(here the empty list, which the source only ever tests for truthiness or
iterates) for every block-level token. -/
def Token.children : Token → List Inline
  | .inline cs => cs
  | _ => []

/-- md_token_to_rich_text: converts one (expected inline) token to the
list of Notion rich-text objects, returning the empty list when the token
has no children. -/
def md_token_to_rich_text (token : Token) : List RichTextObj :=
  if token.children.isEmpty then []
  else richTextLoop token.children { bold := false, italic := false } none

/-- One row of a table block: the ordered cells, each a rich-text list. -/
structure TableRow where
  cells : List (List RichTextObj)
deriving DecidableEq, Repr

/-- The block dictionaries appended to the output list by
markdown_to_notion_blocks, one constructor per emitted type field. -/
inductive Block where
  | heading (level : Nat) (rich_text : List RichTextObj)
  | paragraph (rich_text : List RichTextObj)
  | image (url : String)
  | bulleted_list_item (rich_text : List RichTextObj)
  | numbered_list_item (rich_text : List RichTextObj)
  | code (rich_text : List RichTextObj) (language : String)
  | quote (rich_text : List RichTextObj)
  | callout (rich_text : List RichTextObj) (emoji : String)
  | divider
  | table (table_width : Nat) (has_column_header : Bool) (has_row_header : Bool)
      (children : List TableRow)
deriving DecidableEq, Repr

/-- Python str.strip with no argument: remove leading and trailing
whitespace characters. -/
def pyStrip (s : String) : String :=
  String.mk (((s.data.dropWhile Char.isWhitespace).reverse.dropWhile Char.isWhitespace).reverse)

/-- Python str.startswith: the second string is a leading segment of the
first. -/
def pyStartsWith (s pre : String) : Bool :=
  pre.data.isPrefixOf s.data

/-- The filter applied to an inline token's children when deciding whether
a paragraph is an image-only paragraph: keep a child when its type is not
text or its stripped content is non-empty. -/
def significantChild : Inline → Bool
  | .text s => pyStrip s ≠ ""
  | _ => true

/-- Whether an inline child is an image reference. -/
def isImageChild : Inline → Bool
  | .image _ => true
  | _ => false

/-- attrs src of an image child (only ever read on image children). -/
def Inline.imageSrc : Inline → String
  | .image s => s
  | _ => ""

/-- The inner j-loop of the list branch: walks the tokens after the list
open until a bullet_list_close or ordered_list_close (of either kind) or
the end, emitting one list-item block per list_item_open from the inline
token two positions further on (tokens at j+2); returns the emitted blocks
and the tokens after the close.  none models the IndexError raised when
j+2 is past the end of the stream. -/
def scanListItems (isBullet : Bool) : List Token → Option (List Block × List Token)
  | [] => some ([], [])
  | t :: rest =>
    match t with
    | .bullet_list_close => some ([], rest)
    | .ordered_list_close => some ([], rest)
    | .list_item_open =>
        match rest.get? 1 with
        | none => none
        | some inl =>
            match scanListItems isBullet rest with
            | none => none
            | some (items, rem) =>
                some ((if isBullet then Block.bulleted_list_item (md_token_to_rich_text inl)
                       else Block.numbered_list_item (md_token_to_rich_text inl)) :: items, rem)
    | _ => scanListItems isBullet rest

/-- The j-loop of the blockquote branch: skip forward past the first
blockquote_close (or to the end of the stream). -/
def skipPastBlockquoteClose : List Token → List Token
  | [] => []
  | .blockquote_close :: rest => rest
  | _ :: rest => skipPastBlockquoteClose rest

/-- The inner k-loop of the table branch: collects the cells of one row,
walking from the token after tr_open until a tr_close or the end; each
th_open or td_open contributes the rich text of the very next token
(tokens at k+1).  none models the IndexError raised when k+1 is past the
end of the stream. -/
def scanRowCells : List Token → Option (List (List RichTextObj))
  | [] => some []
  | t :: rest =>
    match t with
    | .tr_close => some []
    | .th_open =>
        match rest.head? with
        | none => none
        | some cellTok =>
            match scanRowCells rest with
            | none => none
            | some cells => some (md_token_to_rich_text cellTok :: cells)
    | .td_open =>
        match rest.head? with
        | none => none
        | some cellTok =>
            match scanRowCells rest with
            | none => none
            | some cells => some (md_token_to_rich_text cellTok :: cells)
    | _ => scanRowCells rest

/-- The accumulating table dictionary of the table branch (has_row_header
is never touched and stays at its initial false). -/
structure TableAcc where
  table_width : Nat
  has_column_header : Bool
  children : List TableRow
deriving DecidableEq, Repr

/-- The j-loop of the table branch: walks the tokens after table_open
until the first table_close (or the end).  thead_open sets the
has_column_header flag; each tr_open appends a row built by scanRowCells
from the following tokens, and sets table_width to that row's cell count
when table_width is still zero (the Python truthiness test
if not table_width).  Returns the finished accumulator and the tokens
after the close. -/
def scanTableTokens : List Token → TableAcc → Option (TableAcc × List Token)
  | [], acc => some (acc, [])
  | t :: rest, acc =>
    match t with
    | .table_close => some (acc, rest)
    | .thead_open => scanTableTokens rest { acc with has_column_header := true }
    | .tr_open =>
        match scanRowCells rest with
        | none => none
        | some cells =>
            scanTableTokens rest
              { acc with
                children := acc.children ++ [{ cells := cells }],
                table_width := if acc.table_width = 0 then cells.length else acc.table_width }
    | _ => scanTableTokens rest acc

/-- The while-loop of markdown_to_notion_blocks over the remaining token
stream.  The first argument is a step budget: the loop body runs once per
unit of budget, mirroring one iteration of the Python while-loop with a
skip (the cursor moves at least one token per iteration, so a budget equal
to the token count is proved sufficient below).  none models the
IndexError raised by the unbounded look-ahead reads tokens at i+1, i+2,
j+2 and k+1 (and an exhausted budget, which a sufficient budget never
reaches). -/
def compileLoop : Nat → List Token → Option (List Block)
  | _, [] => some []
  | 0, _ :: _ => none
  | fuel + 1, t :: rest =>
    match t with
    | .heading_open level =>
        match rest.head? with
        | none => none
        | some inl =>
            match compileLoop fuel (rest.drop 2) with
            | none => none
            | some more => some (Block.heading level (md_token_to_rich_text inl) :: more)
    | .paragraph_open =>
        match rest.head? with
        | none => none
        | some inl =>
            let cs := inl.children
            let significant := cs.filter significantChild
            let isImg := !cs.isEmpty &&
              (match significant with
               | [c] => isImageChild c
               | _ => false)
            if isImg then
              match cs.find? isImageChild with
              | none => none
              | some c =>
                  match compileLoop fuel (rest.drop 2) with
                  | none => none
                  | some more => some (Block.image c.imageSrc :: more)
            else
              match compileLoop fuel (rest.drop 2) with
              | none => none
              | some more =>
                  some (if (md_token_to_rich_text inl).isEmpty then more
                        else Block.paragraph (md_token_to_rich_text inl) :: more)
    | .bullet_list_open =>
        match scanListItems true rest with
        | none => none
        | some (items, rem) =>
            match compileLoop fuel rem with
            | none => none
            | some more => some (items ++ more)
    | .ordered_list_open =>
        match scanListItems false rest with
        | none => none
        | some (items, rem) =>
            match compileLoop fuel rem with
            | none => none
            | some more => some (items ++ more)
    | .fence content info =>
        match compileLoop fuel rest with
        | none => none
        | some more =>
            some (Block.code [{ content := content, link := none, annotations := none }]
                    (if info = "" then "plain text" else info) :: more)
    | .blockquote_open =>
        match rest.get? 1 with
        | none => none
        | some inl =>
            let rich := md_token_to_rich_text inl
            let blk :=
              match rich with
              | r :: _ =>
                  if pyStartsWith (pyStrip r.content) "[!" then Block.callout rich "💡"
                  else Block.quote rich
              | [] => Block.quote rich
            match compileLoop fuel (skipPastBlockquoteClose rest) with
            | none => none
            | some more => some (blk :: more)
    | .hr =>
        match compileLoop fuel rest with
        | none => none
        | some more => some (Block.divider :: more)
    | .table_open =>
        match scanTableTokens rest { table_width := 0, has_column_header := false, children := [] } with
        | none => none
        | some (acc, rem) =>
            match compileLoop fuel rem with
            | none => none
            | some more =>
                some (Block.table acc.table_width acc.has_column_header false acc.children :: more)
    | _ => compileLoop fuel rest

/-- markdown_to_notion_blocks as a function of the token stream produced
by the external tokenizer: the while-loop run with a step budget equal to
the token count. -/
def markdown_to_notion_blocks (tokens : List Token) : Option (List Block) :=
  compileLoop tokens.length tokens

/-- The literal front-matter marker of parse_markdown_file. -/
def dashMarker : List Char := ['-', '-', '-']

/-- One step of content.split with the marker: find the leftmost
(non-overlapping) occurrence of the three dashes, returning the characters
before it and the characters after it, or none when it does not occur. -/
def splitDashes : List Char → Option (List Char × List Char)
  | '-' :: '-' :: '-' :: rest => some ([], rest)
  | c :: cs =>
      match splitDashes cs with
      | some (pre, post) => some (c :: pre, post)
      | none => none
  | [] => none

/-- The number of non-overlapping occurrences of the marker, scanning left
to right (the occurrences content.split with a maxsplit of 2 counts
against its limit). -/
def countMarker : List Char → Nat
  | '-' :: '-' :: '-' :: rest => 1 + countMarker rest
  | _ :: cs => countMarker cs
  | [] => 0

/-- parse_markdown_file on the file's text (the file read itself is I/O
outside the model; yaml.safe_load is an external collaborator, so the
metadata is represented by the raw character segment handed to it, none
standing for the empty metadata dictionary of the no-front-matter path).
content.split with marker and maxsplit 2 yields fewer than three parts
exactly when a first or second occurrence is missing; then the whole text
is returned unchanged.  Otherwise the segment between the first two
occurrences is the metadata source and the remainder, left-stripped, is
the body. -/
def parse_markdown_file (content : List Char) : Option (List Char) × List Char :=
  match splitDashes content with
  | none => (none, content)
  | some (_, rest1) =>
      match splitDashes rest1 with
      | none => (none, content)
      | some (p1, rest2) => (some p1, rest2.dropWhile Char.isWhitespace)

/-- The state of the active annotation dictionary after the inline
formatter's loop has scanned a child list. -/
def annAfter : List Inline → ActiveAnn → ActiveAnn
  | [], act => act
  | c :: cs, act =>
      annAfter cs
        (match c with
         | .strong_open => { act with bold := true }
         | .strong_close => { act with bold := false }
         | .em_open => { act with italic := true }
         | .em_close => { act with italic := false }
         | _ => act)

/-- The current link url after the inline formatter's loop has scanned a
child list. -/
def linkAfter : List Inline → Option String → Option String
  | [], link => link
  | c :: cs, link =>
      linkAfter cs
        (match c with
         | .link_open href => some href
         | .link_close => none
         | _ => link)

/-- Whether a token is the table_close kind (the j-loop's stop test). -/
def Token.isTableClose : Token → Bool
  | .table_close => true
  | _ => false

/-- Whether a token is the thead_open kind (the has-header trigger). -/
def Token.isTheadOpen : Token → Bool
  | .thead_open => true
  | _ => false

/-- The first non-zero entry of a list of numbers (zero when there is
none): the value the repeated truthiness test if not table_width leaves
in table_width after processing the rows in order. -/
def firstNonzero : List Nat → Nat
  | [] => 0
  | n :: ns => if n = 0 then firstNonzero ns else n

/-- The rows of a table region in document order: one row per tr_open
before the first table_close, with the cells scanned by scanRowCells from
the tokens that follow it.  This is the specification-side reading of the
table branch, compared below with the accumulator scanTableTokens
builds. -/
def tableRowsSpec : List Token → Option (List TableRow)
  | [] => some []
  | t :: rest =>
    match t with
    | .table_close => some []
    | .tr_open =>
        match scanRowCells rest with
        | none => none
        | some cells =>
            match tableRowsSpec rest with
            | none => none
            | some rows => some ({ cells := cells } :: rows)
    | _ => tableRowsSpec rest

theorem skipPastBlockquoteClose_sublist (ts : List Token) :
    (skipPastBlockquoteClose ts).Sublist ts := by
  induction ts with
  | nil => simp [skipPastBlockquoteClose]
  | cons t rest ih =>
      cases t <;> simp only [skipPastBlockquoteClose] <;>
        first
          | exact List.sublist_cons_self _ _
          | exact ih.cons _

theorem scanListItems_rem_sublist (isBullet : Bool) (ts : List Token) :
    ∀ items rem, scanListItems isBullet ts = some (items, rem) → rem.Sublist ts := by
  induction ts with
  | nil =>
      intro items rem h
      simp only [scanListItems, Option.some.injEq, Prod.mk.injEq] at h
      simp [← h.2]
  | cons t rest ih =>
      intro items rem h
      cases t <;> simp only [scanListItems, Option.some.injEq, Prod.mk.injEq] at h
      case bullet_list_close => exact h.2 ▸ List.sublist_cons_self _ _
      case ordered_list_close => exact h.2 ▸ List.sublist_cons_self _ _
      case list_item_open =>
          cases hg : rest.get? 1 with
          | none => rw [hg] at h; simp at h
          | some inl =>
              rw [hg] at h
              cases hs : scanListItems isBullet rest with
              | none => rw [hs] at h; simp at h
              | some pr =>
                  obtain ⟨items', rem'⟩ := pr
                  rw [hs] at h
                  simp only [Option.some.injEq, Prod.mk.injEq] at h
                  exact h.2 ▸ (ih items' rem' hs).cons _
      all_goals exact (ih items rem h).cons _

theorem scanTableTokens_rem_sublist (ts : List Token) :
    ∀ acc acc' rem, scanTableTokens ts acc = some (acc', rem) → rem.Sublist ts := by
  induction ts with
  | nil =>
      intro acc acc' rem h
      simp only [scanTableTokens, Option.some.injEq, Prod.mk.injEq] at h
      simp [← h.2]
  | cons t rest ih =>
      intro acc acc' rem h
      cases t <;> simp only [scanTableTokens, Option.some.injEq, Prod.mk.injEq] at h
      case table_close => exact h.2 ▸ List.sublist_cons_self _ _
      case thead_open => exact (ih _ acc' rem h).cons _
      case tr_open =>
          cases hc : scanRowCells rest with
          | none => rw [hc] at h; simp at h
          | some cells => rw [hc] at h; exact (ih _ acc' rem h).cons _
      all_goals exact (ih acc acc' rem h).cons _

theorem compileLoop_congr :
    ∀ f1 : Nat, ∀ ts : List Token, ∀ f2 : Nat, ts.length ≤ f1 → ts.length ≤ f2 →
      compileLoop f1 ts = compileLoop f2 ts := by
  intro f1
  induction f1 with
  | zero =>
      intro ts f2 h1 _
      have : ts = [] := List.length_eq_zero.mp (Nat.le_zero.mp h1)
      subst this
      simp [compileLoop]
  | succ f1 ih =>
      intro ts f2 h1 h2
      cases ts with
      | nil => simp [compileLoop]
      | cons t rest =>
          simp only [List.length_cons] at h1 h2
          cases f2 with
          | zero => omega
          | succ f2 =>
              have hr1 : rest.length ≤ f1 := by omega
              have hr2 : rest.length ≤ f2 := by omega
              cases t
              case heading_open level =>
                  simp only [compileLoop]
                  cases hh : rest.head? with
                  | none => rfl
                  | some inl =>
                      rw [ih (rest.drop 2) f2
                            (by simpa [List.length_drop] using by omega)
                            (by simpa [List.length_drop] using by omega)]
              case paragraph_open =>
                  simp only [compileLoop]
                  cases hh : rest.head? with
                  | none => rfl
                  | some inl =>
                      rw [ih (rest.drop 2) f2
                            (by simpa [List.length_drop] using by omega)
                            (by simpa [List.length_drop] using by omega)]
              case bullet_list_open =>
                  simp only [compileLoop]
                  cases hs : scanListItems true rest with
                  | none => rfl
                  | some pr =>
                      obtain ⟨items, rem⟩ := pr
                      have hle := (scanListItems_rem_sublist true rest items rem hs).length_le
                      dsimp only
                      rw [ih rem f2 (by omega) (by omega)]
              case ordered_list_open =>
                  simp only [compileLoop]
                  cases hs : scanListItems false rest with
                  | none => rfl
                  | some pr =>
                      obtain ⟨items, rem⟩ := pr
                      have hle := (scanListItems_rem_sublist false rest items rem hs).length_le
                      dsimp only
                      rw [ih rem f2 (by omega) (by omega)]
              case fence content info =>
                  simp only [compileLoop]
                  rw [ih rest f2 hr1 hr2]
              case blockquote_open =>
                  simp only [compileLoop]
                  cases hg : rest.get? 1 with
                  | none => rfl
                  | some inl =>
                      have hle := (skipPastBlockquoteClose_sublist rest).length_le
                      rw [ih (skipPastBlockquoteClose rest) f2 (by omega) (by omega)]
              case hr =>
                  simp only [compileLoop]
                  rw [ih rest f2 hr1 hr2]
              case table_open =>
                  simp only [compileLoop]
                  cases hs : scanTableTokens rest
                      { table_width := 0, has_column_header := false, children := [] } with
                  | none => rfl
                  | some pr =>
                      obtain ⟨acc, rem⟩ := pr
                      have hle := (scanTableTokens_rem_sublist rest _ acc rem hs).length_le
                      dsimp only
                      rw [ih rem f2 (by omega) (by omega)]
              all_goals simp only [compileLoop]; exact ih rest f2 hr1 hr2

theorem scanListItems_items_shape (isBullet : Bool) (ts : List Token) :
    ∀ items rem, scanListItems isBullet ts = some (items, rem) →
      ∀ b ∈ items, (∃ rt, b = Block.bulleted_list_item rt) ∨
        (∃ rt, b = Block.numbered_list_item rt) := by
  induction ts with
  | nil =>
      intro items rem h
      simp only [scanListItems, Option.some.injEq, Prod.mk.injEq] at h
      rw [← h.1]
      intro b hb
      simp at hb
  | cons t rest ih =>
      intro items rem h
      cases t <;> simp only [scanListItems, Option.some.injEq, Prod.mk.injEq] at h
      case bullet_list_close =>
          rw [← h.1]; intro b hb; simp at hb
      case ordered_list_close =>
          rw [← h.1]; intro b hb; simp at hb
      case list_item_open =>
          cases hg : rest.get? 1 with
          | none => rw [hg] at h; simp at h
          | some inl =>
              rw [hg] at h
              cases hs : scanListItems isBullet rest with
              | none => rw [hs] at h; simp at h
              | some pr =>
                  obtain ⟨items', rem'⟩ := pr
                  rw [hs] at h
                  simp only [Option.some.injEq, Prod.mk.injEq] at h
                  rw [← h.1]
                  intro b hb
                  rcases List.mem_cons.mp hb with hb | hb
                  · subst hb
                    cases isBullet
                    · right; exact ⟨md_token_to_rich_text inl, by simp⟩
                    · left; exact ⟨md_token_to_rich_text inl, by simp⟩
                  · exact ih items' rem' hs b hb
      all_goals exact ih items rem h

/-- Lifting the per-block invariant along a token-stream inclusion. -/
theorem invLift {b : Block} {ts' ts : List Token} (hsub : ∀ x, x ∈ ts' → x ∈ ts)
    (h : (∀ rt, b = Block.paragraph rt → rt ≠ []) ∧
         (∀ l rt, b = Block.heading l rt → Token.heading_open l ∈ ts')) :
    (∀ rt, b = Block.paragraph rt → rt ≠ []) ∧
    (∀ l rt, b = Block.heading l rt → Token.heading_open l ∈ ts) :=
  ⟨h.1, fun l rt hrt => hsub _ (h.2 l rt hrt)⟩

/-- The per-block invariant of the compiled output: a paragraph block is
never emitted with empty rich text, and a heading block's level is always
copied verbatim from some heading_open token of the input stream. -/
theorem compileLoop_blocks_inv :
    ∀ fuel : Nat, ∀ ts : List Token, ∀ blocks : List Block,
      compileLoop fuel ts = some blocks → ∀ b ∈ blocks,
        (∀ rt, b = Block.paragraph rt → rt ≠ []) ∧
        (∀ l rt, b = Block.heading l rt → Token.heading_open l ∈ ts) := by
  intro fuel
  induction fuel with
  | zero =>
      intro ts blocks h
      cases ts with
      | nil =>
          simp only [compileLoop, Option.some.injEq] at h
          rw [← h]; intro b hb; simp at hb
      | cons t rest => simp [compileLoop] at h
  | succ fuel ih =>
      intro ts blocks h
      cases ts with
      | nil =>
          simp only [compileLoop, Option.some.injEq] at h
          rw [← h]; intro b hb; simp at hb
      | cons t rest =>
          cases t <;> simp only [compileLoop] at h
          case heading_open level =>
              cases hh : rest.head? with
              | none => rw [hh] at h; simp at h
              | some inl =>
                  rw [hh] at h
                  cases hm : compileLoop fuel (rest.drop 2) with
                  | none => rw [hm] at h; simp at h
                  | some more =>
                      rw [hm] at h
                      simp only [Option.some.injEq] at h
                      rw [← h]
                      intro b hb
                      rcases List.mem_cons.mp hb with hb | hb
                      · subst hb
                        refine ⟨by simp, ?_⟩
                        intro l rt hrt
                        obtain ⟨h1, _⟩ := Block.heading.inj hrt
                        rw [← h1]
                        exact List.mem_cons_self _ _
                      · exact invLift
                          (fun x hx => List.mem_cons_of_mem _ (List.drop_subset 2 rest hx))
                          (ih (rest.drop 2) more hm b hb)
          case paragraph_open =>
              cases hh : rest.head? with
              | none => rw [hh] at h; simp at h
              | some inl =>
                  rw [hh] at h
                  dsimp only at h
                  split at h
                  · cases hf : inl.children.find? isImageChild with
                    | none => rw [hf] at h; simp at h
                    | some c =>
                        rw [hf] at h
                        cases hm : compileLoop fuel (rest.drop 2) with
                        | none => rw [hm] at h; simp at h
                        | some more =>
                            rw [hm] at h
                            simp only [Option.some.injEq] at h
                            rw [← h]
                            intro b hb
                            rcases List.mem_cons.mp hb with hb | hb
                            · subst hb; exact ⟨by simp, by simp⟩
                            · exact invLift
                                (fun x hx => List.mem_cons_of_mem _ (List.drop_subset 2 rest hx))
                                (ih (rest.drop 2) more hm b hb)
                  · cases hm : compileLoop fuel (rest.drop 2) with
                    | none => rw [hm] at h; simp at h
                    | some more =>
                        rw [hm] at h
                        simp only [Option.some.injEq] at h
                        rw [← h]
                        intro b hb
                        by_cases hre : (md_token_to_rich_text inl).isEmpty = true
                        · rw [if_pos hre] at hb
                          exact invLift
                            (fun x hx => List.mem_cons_of_mem _ (List.drop_subset 2 rest hx))
                            (ih (rest.drop 2) more hm b hb)
                        · rw [if_neg hre] at hb
                          rcases List.mem_cons.mp hb with hb | hb
                          · subst hb
                            refine ⟨?_, by simp⟩
                            intro rt hrt
                            obtain h1 := Block.paragraph.inj hrt
                            rw [← h1]
                            intro hnil
                            exact hre (by simp [hnil])
                          · exact invLift
                              (fun x hx => List.mem_cons_of_mem _ (List.drop_subset 2 rest hx))
                              (ih (rest.drop 2) more hm b hb)
          case bullet_list_open =>
              cases hs : scanListItems true rest with
              | none => rw [hs] at h; simp at h
              | some pr =>
                  obtain ⟨items, rem⟩ := pr
                  rw [hs] at h
                  dsimp only at h
                  cases hm : compileLoop fuel rem with
                  | none => rw [hm] at h; simp at h
                  | some more =>
                      rw [hm] at h
                      simp only [Option.some.injEq] at h
                      rw [← h]
                      intro b hb
                      rcases List.mem_append.mp hb with hb | hb
                      · rcases scanListItems_items_shape true rest items rem hs b hb with
                          ⟨rt, rfl⟩ | ⟨rt, rfl⟩ <;> exact ⟨by simp, by simp⟩
                      · exact invLift
                          (fun x hx => List.mem_cons_of_mem _
                            ((scanListItems_rem_sublist true rest items rem hs).subset hx))
                          (ih rem more hm b hb)
          case ordered_list_open =>
              cases hs : scanListItems false rest with
              | none => rw [hs] at h; simp at h
              | some pr =>
                  obtain ⟨items, rem⟩ := pr
                  rw [hs] at h
                  dsimp only at h
                  cases hm : compileLoop fuel rem with
                  | none => rw [hm] at h; simp at h
                  | some more =>
                      rw [hm] at h
                      simp only [Option.some.injEq] at h
                      rw [← h]
                      intro b hb
                      rcases List.mem_append.mp hb with hb | hb
                      · rcases scanListItems_items_shape false rest items rem hs b hb with
                          ⟨rt, rfl⟩ | ⟨rt, rfl⟩ <;> exact ⟨by simp, by simp⟩
                      · exact invLift
                          (fun x hx => List.mem_cons_of_mem _
                            ((scanListItems_rem_sublist false rest items rem hs).subset hx))
                          (ih rem more hm b hb)
          case fence content info =>
              cases hm : compileLoop fuel rest with
              | none => rw [hm] at h; simp at h
              | some more =>
                  rw [hm] at h
                  simp only [Option.some.injEq] at h
                  rw [← h]
                  intro b hb
                  rcases List.mem_cons.mp hb with hb | hb
                  · subst hb; exact ⟨by simp, by simp⟩
                  · exact invLift (fun x hx => List.mem_cons_of_mem _ hx) (ih rest more hm b hb)
          case blockquote_open =>
              cases hg : rest.get? 1 with
              | none => rw [hg] at h; simp at h
              | some inl =>
                  rw [hg] at h
                  dsimp only at h
                  cases hm : compileLoop fuel (skipPastBlockquoteClose rest) with
                  | none => rw [hm] at h; simp at h
                  | some more =>
                      rw [hm] at h
                      simp only [Option.some.injEq] at h
                      rw [← h]
                      intro b hb
                      rcases List.mem_cons.mp hb with hb | hb
                      · subst hb
                        cases hrich : md_token_to_rich_text inl with
                        | nil => exact ⟨by simp, by simp⟩
                        | cons r rs =>
                            dsimp only
                            split <;> exact ⟨by simp, by simp⟩
                      · exact invLift
                          (fun x hx => List.mem_cons_of_mem _
                            ((skipPastBlockquoteClose_sublist rest).subset hx))
                          (ih (skipPastBlockquoteClose rest) more hm b hb)
          case hr =>
              cases hm : compileLoop fuel rest with
              | none => rw [hm] at h; simp at h
              | some more =>
                  rw [hm] at h
                  simp only [Option.some.injEq] at h
                  rw [← h]
                  intro b hb
                  rcases List.mem_cons.mp hb with hb | hb
                  · subst hb; exact ⟨by simp, by simp⟩
                  · exact invLift (fun x hx => List.mem_cons_of_mem _ hx) (ih rest more hm b hb)
          case table_open =>
              cases hs : scanTableTokens rest
                  { table_width := 0, has_column_header := false, children := [] } with
              | none => rw [hs] at h; simp at h
              | some pr =>
                  obtain ⟨acc, rem⟩ := pr
                  rw [hs] at h
                  dsimp only at h
                  cases hm : compileLoop fuel rem with
                  | none => rw [hm] at h; simp at h
                  | some more =>
                      rw [hm] at h
                      simp only [Option.some.injEq] at h
                      rw [← h]
                      intro b hb
                      rcases List.mem_cons.mp hb with hb | hb
                      · subst hb; exact ⟨by simp, by simp⟩
                      · exact invLift
                          (fun x hx => List.mem_cons_of_mem _
                            ((scanTableTokens_rem_sublist rest _ acc rem hs).subset hx))
                          (ih rem more hm b hb)
          all_goals
            exact fun b hb =>
              invLift (fun x hx => List.mem_cons_of_mem _ hx) (ih rest blocks h b hb)

example :
    parse_markdown_file "ab---cd---  ef".toList
    = (some "cd".toList, "ef".toList) := by decide

example :
    markdown_to_notion_blocks
      [Token.bullet_list_open, Token.list_item_open, Token.paragraph_open,
       Token.inline [Inline.text "a"], Token.paragraph_close, Token.list_item_close,
       Token.bullet_list_close]
    = some [Block.bulleted_list_item [{ content := "a", link := none, annotations := none }]] := by
  decide

example : parse_markdown_file "a---b".toList = (none, "a---b".toList) := by decide

example :
    md_token_to_rich_text
      (Token.inline [Inline.strong_open, Inline.text "b", Inline.code_inline "c",
        Inline.text "d", Inline.strong_close])
    = [{ content := "b", link := none,
         annotations := some { bold := true, italic := false, code := false } },
       { content := "c", link := none,
         annotations := some { bold := false, italic := false, code := true } },
       { content := "d", link := none,
         annotations := some { bold := true, italic := false, code := false } }] := by decide

/-- C1, counterexample to the claim as stated: the block compiler emits a
heading block whose rich text is empty.  The stream of a bare hash line
(heading_open, inline with no children, heading_close) compiles to an
output sequence containing a heading block with empty rich text, so empty
heading blocks are not dropped. -/
theorem c1_counterexample :
    markdown_to_notion_blocks [Token.heading_open 1, Token.inline [], Token.heading_close]
      = some [Block.heading 1 []] := by rfl

/-- C1, amended: only the paragraph branch of the block compiler checks
its rich text, so for every token stream, every paragraph block in the
compiled output has non-empty rich text (an empty-rich-text paragraph is
dropped); heading, list-item and quote blocks are emitted unchecked. -/
theorem c1_amended (ts : List Token) (blocks : List Block)
    (h : markdown_to_notion_blocks ts = some blocks) :
    ∀ rt, Block.paragraph rt ∈ blocks → rt ≠ [] :=
  fun rt hmem =>
    (compileLoop_blocks_inv ts.length ts blocks h (Block.paragraph rt) hmem).1 rt rfl

/-- C1, witness: the amended theorem applied at a concrete stream with one
non-empty paragraph, fully instantiated. -/
theorem c1_witness :
    ([{ content := "x", link := none, annotations := none }] : List RichTextObj) ≠ [] :=
  c1_amended
    [Token.paragraph_open, Token.inline [Inline.text "x"], Token.paragraph_close]
    [Block.paragraph [{ content := "x", link := none, annotations := none }]] (by rfl)
    [{ content := "x", link := none, annotations := none }] (by simp)

/-- C2: the look-ahead reads of the block compiler are not bounded, and
each of them crashes (an IndexError, modelled by the none result) on a
malformed stream ending just before the read: a final heading_open
(tokens at i+1), a final paragraph_open (tokens at i+1), a list_item_open
with fewer than two following tokens (tokens at j+2), a blockquote_open
with fewer than two following tokens (tokens at i+2), and a td_open as
the final token (tokens at k+1). -/
theorem c2_crash_on_truncated_streams :
    markdown_to_notion_blocks [Token.heading_open 1] = none ∧
    markdown_to_notion_blocks [Token.paragraph_open] = none ∧
    markdown_to_notion_blocks [Token.bullet_list_open, Token.list_item_open] = none ∧
    markdown_to_notion_blocks [Token.blockquote_open, Token.paragraph_open] = none ∧
    markdown_to_notion_blocks [Token.table_open, Token.tr_open, Token.td_open] = none :=
  ⟨by rfl, by rfl, by rfl, by rfl, by rfl⟩

/-- C3, counterexample to the claim as stated: a heading_open token of
level 4 produces a heading block of level 4 in the output, so the set of
heading block kinds the compiler emits is not limited to levels 1
through 3. -/
theorem c3_counterexample :
    markdown_to_notion_blocks
        [Token.heading_open 4, Token.inline [Inline.text "C"], Token.heading_close]
      = some [Block.heading 4 [{ content := "C", link := none, annotations := none }]] ∧
    ¬ (4 = 1 ∨ 4 = 2 ∨ 4 = 3) :=
  ⟨by rfl, by decide⟩

/-- C3, amended: the compiler copies the heading level verbatim from the
heading_open token's tag, whatever the level: every heading block of
level l in the output comes from a heading_open token of the same level l
in the input stream (so a level-4 token yields a heading-4 block, which is
not one of the rendered heading types 1 through 3, rather than being
dropped or reclassified). -/
theorem c3_amended (ts : List Token) (blocks : List Block)
    (h : markdown_to_notion_blocks ts = some blocks) :
    ∀ l rt, Block.heading l rt ∈ blocks → Token.heading_open l ∈ ts :=
  fun l rt hmem =>
    (compileLoop_blocks_inv ts.length ts blocks h (Block.heading l rt) hmem).2 l rt rfl

/-- C3, witness: the amended theorem applied at a concrete stream with one
level-2 heading. -/
theorem c3_witness :
    Token.heading_open 2 ∈ [Token.heading_open 2, Token.inline [], Token.heading_close] :=
  c3_amended _ [Block.heading 2 []] (by rfl) 2 [] (by simp)

/-- When the significant-children filter leaves exactly one image child,
the first image child of the full child list is that one (every image
child passes the filter). -/
theorem find_image_of_filter (cs : List Inline) (src : String)
    (hf : cs.filter significantChild = [Inline.image src]) :
    cs.find? isImageChild = some (Inline.image src) := by
  induction cs with
  | nil => simp at hf
  | cons c cs' ih =>
      cases c
      case text s =>
          by_cases hps : pyStrip s = ""
          · rw [List.find?_cons_of_neg _ (by simp [isImageChild])]
            apply ih
            simpa [List.filter_cons, significantChild, hps] using hf
          · simp [List.filter_cons, significantChild, hps] at hf
      case image s =>
          rw [List.find?_cons_of_pos _ (by simp [isImageChild])]
          simp [List.filter_cons, significantChild] at hf
          rw [hf.1]
      all_goals
        simp [List.filter_cons, significantChild] at hf

/-- C4: for every blockquote construct (blockquote_open, paragraph_open,
inline) whose first paragraph's formatted rich text is non-empty, the
compiler emits, in that position of the output, a callout block with
the fixed light-bulb emoji icon carrying that rich text when the first
span's stripped content starts with the two characters bracket-bang, and
a quote block carrying that rich text otherwise. -/
theorem c4_blockquote_callout_dispatch (cs : List Inline) (rest : List Token)
    (blocks : List Block)
    (h : markdown_to_notion_blocks
          (Token.blockquote_open :: Token.paragraph_open :: Token.inline cs :: rest)
        = some blocks)
    (hne : md_token_to_rich_text (Token.inline cs) ≠ []) :
    ∃ r rs more,
      md_token_to_rich_text (Token.inline cs) = r :: rs ∧
      blocks = (if pyStartsWith (pyStrip r.content) "[!"
                then Block.callout (r :: rs) "💡"
                else Block.quote (r :: rs)) :: more := by
  simp only [markdown_to_notion_blocks, List.length_cons] at h
  simp only [compileLoop, List.get?] at h
  cases hrich : md_token_to_rich_text (Token.inline cs) with
  | nil => exact absurd hrich hne
  | cons r rs =>
      rw [hrich] at h
      dsimp only at h
      cases hm : compileLoop (rest.length + 1 + 1)
          (skipPastBlockquoteClose (Token.paragraph_open :: Token.inline cs :: rest)) with
      | none => rw [hm] at h; simp at h
      | some more =>
          rw [hm] at h
          simp only [Option.some.injEq] at h
          exact ⟨r, rs, more, rfl, h.symm⟩

/-- C4, witness: the dispatch theorem applied at a concrete blockquote
whose first span starts with the callout marker. -/
theorem c4_witness :
    ∃ r rs more,
      md_token_to_rich_text (Token.inline [Inline.text "[!NOTE] hi"]) = r :: rs ∧
      some [Block.callout
              [{ content := "[!NOTE] hi", link := none, annotations := none }] "💡"]
        = some ((if pyStartsWith (pyStrip r.content) "[!"
                 then Block.callout (r :: rs) "💡"
                 else Block.quote (r :: rs)) :: more) := by
  obtain ⟨r, rs, more, h1, h2⟩ :=
    c4_blockquote_callout_dispatch [Inline.text "[!NOTE] hi"]
      [Token.paragraph_close, Token.blockquote_close]
      [Block.callout [{ content := "[!NOTE] hi", link := none, annotations := none }] "💡"]
      (by decide) (by decide)
  exact ⟨r, rs, more, h1, by rw [← h2]⟩

/-- C5: for every paragraph construct (paragraph_open, inline), when the
significant-children filter leaves exactly one child and it is an image
reference, the compiler emits a single image block whose url is the image
child's source attribute and no paragraph block; otherwise it emits a
paragraph block with the formatted rich text, dropping it when that rich
text is empty.  In each case the remaining output is the compilation of
the remaining tokens. -/
theorem c5_paragraph_image_dispatch (cs : List Inline) (rest : List Token)
    (blocks : List Block)
    (h : markdown_to_notion_blocks (Token.paragraph_open :: Token.inline cs :: rest)
        = some blocks) :
    (∀ src, cs.filter significantChild = [Inline.image src] →
        ∃ more, blocks = Block.image src :: more ∧
          markdown_to_notion_blocks (rest.drop 1) = some more) ∧
    ((∀ src, cs.filter significantChild ≠ [Inline.image src]) →
      ((md_token_to_rich_text (Token.inline cs) ≠ [] →
          ∃ more,
            blocks = Block.paragraph (md_token_to_rich_text (Token.inline cs)) :: more ∧
            markdown_to_notion_blocks (rest.drop 1) = some more) ∧
       (md_token_to_rich_text (Token.inline cs) = [] →
          markdown_to_notion_blocks (rest.drop 1) = some blocks))) := by
  have hcg : compileLoop (rest.length + 1) (rest.drop 1)
      = markdown_to_notion_blocks (rest.drop 1) := by
    refine compileLoop_congr (rest.length + 1) (rest.drop 1) (rest.drop 1).length ?_ le_rfl
    simp [List.length_drop]
    omega
  simp only [markdown_to_notion_blocks, List.length_cons] at h
  simp only [compileLoop, List.head?] at h
  dsimp only [Token.children] at h
  simp only [List.drop] at h
  constructor
  · intro src hfilter
    have hcs : cs ≠ [] := by
      intro hnil
      rw [hnil] at hfilter
      simp at hfilter
    rw [hfilter] at h
    rw [if_pos (show (!cs.isEmpty && isImageChild (Inline.image src)) = true by
          simp [isImageChild, List.isEmpty_eq_false.mpr hcs])] at h
    rw [find_image_of_filter cs src hfilter] at h
    dsimp only [Inline.imageSrc] at h
    cases hm : compileLoop (rest.length + 1) (rest.drop 1) with
    | none => rw [hm] at h; simp at h
    | some more =>
        rw [hm] at h
        simp only [Option.some.injEq] at h
        exact ⟨more, h.symm, hcg ▸ hm⟩
  · intro hnot
    have himg : (!cs.isEmpty &&
        (match cs.filter significantChild with
         | [c] => isImageChild c
         | _ => false)) = false := by
      cases hfil : cs.filter significantChild with
      | nil => simp
      | cons c tail =>
          cases tail with
          | nil =>
              cases c <;> simp [isImageChild]
              case image s => exact absurd hfil (hnot s)
          | cons d tail' => simp
    rw [himg] at h
    rw [if_neg Bool.false_ne_true] at h
    cases hm : compileLoop (rest.length + 1) (rest.drop 1) with
    | none => rw [hm] at h; simp at h
    | some more =>
        rw [hm] at h
        simp only [Option.some.injEq] at h
        constructor
        · intro hne
          rw [if_neg (by simp [hne])] at h
          exact ⟨more, h.symm, hcg ▸ hm⟩
        · intro hemp
          rw [if_pos (by simp [hemp])] at h
          rw [h] at hm
          exact hcg ▸ hm

/-- C5, witness: the dispatch theorem applied at a concrete image-only
paragraph, discharging the image branch. -/
theorem c5_witness :
    ∃ more, [Block.image "u.png"] = Block.image "u.png" :: more ∧
      markdown_to_notion_blocks ([Token.paragraph_close].drop 1) = some more :=
  (c5_paragraph_image_dispatch [Inline.text "  ", Inline.image "u.png"]
      [Token.paragraph_close] [Block.image "u.png"] (by decide)).1 "u.png" (by decide)

/-- The inline formatter's loop emits the spans of a concatenation as the
spans of the first part followed by the spans of the second part scanned
in the state the first part leaves behind. -/
theorem richTextLoop_append (xs ys : List Inline) (act : ActiveAnn) (link : Option String) :
    richTextLoop (xs ++ ys) act link
      = richTextLoop xs act link
        ++ richTextLoop ys (annAfter xs act) (linkAfter xs link) := by
  induction xs generalizing act link with
  | nil => simp [richTextLoop, annAfter, linkAfter]
  | cons c cs ih =>
      cases c
      case text s =>
          by_cases hs : s = "" <;>
            simp [richTextLoop, annAfter, linkAfter, ih, hs]
      all_goals simp [richTextLoop, annAfter, linkAfter, ih]

/-- C7: for every inline token and every code_inline child in it, the
formatter emits for that child a span whose annotation set is exactly the
single code flag and which carries no link, regardless of the bold, italic
and link state the preceding children have built up: the output is the
spans of the preceding children, then that pure code span, then the spans
of the following children. -/
theorem c7_code_inline_exclusive (pre post : List Inline) (s : String) :
    md_token_to_rich_text (Token.inline (pre ++ Inline.code_inline s :: post))
      = richTextLoop pre { bold := false, italic := false } none
        ++ ({ content := s, link := none,
              annotations := some { bold := false, italic := false, code := true } }
             : RichTextObj)
          :: richTextLoop post (annAfter pre { bold := false, italic := false })
               (linkAfter pre none) := by
  simp only [md_token_to_rich_text, Token.children]
  rw [if_neg (by simp)]
  rw [richTextLoop_append]
  simp [richTextLoop, annAfter, linkAfter]

/-- C8: an unmatched close marker is tolerated silently by the inline
formatter: when bold is not active, a strong_close child changes nothing
about the emitted spans (it removes no annotation that is not active and
raises no error), and likewise an em_close child when italic is not
active; the formatter is a total function of the child sequence. -/
theorem c8_unmatched_close_noop (cs : List Inline) (act : ActiveAnn) (link : Option String) :
    (act.bold = false →
        richTextLoop (Inline.strong_close :: cs) act link = richTextLoop cs act link) ∧
    (act.italic = false →
        richTextLoop (Inline.em_close :: cs) act link = richTextLoop cs act link) := by
  obtain ⟨b, i⟩ := act
  constructor
  · intro hb
    cases b
    · rfl
    · simp at hb
  · intro hi
    cases i
    · rfl
    · simp at hi

/-- C8, witness: the no-op equations applied with a concrete child list
and the empty annotation state. -/
theorem c8_witness :
    richTextLoop [Inline.strong_close, Inline.text "x"]
        { bold := false, italic := false } none
      = richTextLoop [Inline.text "x"] { bold := false, italic := false } none :=
  (c8_unmatched_close_noop [Inline.text "x"] { bold := false, italic := false } none).1 rfl

/-- C9: the block compiler is a single forward pass whose cursor strictly
increases every iteration, so it completes within a number of loop steps
bounded by the token count: running the loop with any step budget of at
least the stream's length gives the same result as running it with a
budget of exactly the stream's length (markdown_to_notion_blocks). -/
theorem c9_single_pass_bounded (ts : List Token) (fuel : Nat) (h : ts.length ≤ fuel) :
    compileLoop fuel ts = markdown_to_notion_blocks ts :=
  compileLoop_congr fuel ts ts.length h le_rfl

/-- C9, witness: the bound applied at a concrete stream and budget. -/
theorem c9_witness :
    compileLoop 10 [Token.hr, Token.hr] = markdown_to_notion_blocks [Token.hr, Token.hr] :=
  c9_single_pass_bounded [Token.hr, Token.hr] 10 (by decide)

theorem firstNonzero_append (xs ys : List Nat) :
    firstNonzero (xs ++ ys)
      = if firstNonzero xs = 0 then firstNonzero ys else firstNonzero xs := by
  induction xs with
  | nil => simp [firstNonzero]
  | cons n ns ih =>
      by_cases hn : n = 0 <;> simp [firstNonzero, hn, ih]

/-- What the table scan accumulates: the rows of the region in document
order, the has-header flag as the presence of a thead_open before the
first table_close, and the width as the first non-zero row cell count. -/
theorem scanTableTokens_spec :
    ∀ ts : List Token, ∀ acc acc' : TableAcc, ∀ rem : List Token,
      scanTableTokens ts acc = some (acc', rem) →
      ∃ rows, tableRowsSpec ts = some rows ∧
        acc'.children = acc.children ++ rows ∧
        acc'.has_column_header
          = (acc.has_column_header
              || (ts.takeWhile (fun t => ! t.isTableClose)).any Token.isTheadOpen) ∧
        (acc.table_width = firstNonzero (acc.children.map (fun r => r.cells.length)) →
          acc'.table_width = firstNonzero (acc'.children.map (fun r => r.cells.length))) := by
  intro ts
  induction ts with
  | nil =>
      intro acc acc' rem h
      simp only [scanTableTokens, Option.some.injEq, Prod.mk.injEq] at h
      refine ⟨[], by simp [tableRowsSpec], ?_, ?_, ?_⟩
      · rw [← h.1]; simp
      · rw [← h.1]; simp
      · intro hw; rw [← h.1]; exact hw
  | cons t rest ih =>
      intro acc acc' rem h
      cases t <;> simp only [scanTableTokens] at h
      case table_close =>
          simp only [Option.some.injEq, Prod.mk.injEq] at h
          refine ⟨[], by simp [tableRowsSpec], ?_, ?_, ?_⟩
          · rw [← h.1]; simp
          · rw [← h.1]
            simp [List.takeWhile_cons, Token.isTableClose]
          · intro hw; rw [← h.1]; exact hw
      case thead_open =>
          obtain ⟨rows, hrows, hch, hhd, hwd⟩ := ih _ acc' rem h
          refine ⟨rows, by simpa [tableRowsSpec] using hrows, by simpa using hch, ?_, ?_⟩
          · rw [hhd]
            simp [List.takeWhile_cons, Token.isTheadOpen, Token.isTableClose]
          · intro hw
            exact hwd (by simpa using hw)
      case tr_open =>
          cases hc : scanRowCells rest with
          | none => rw [hc] at h; simp at h
          | some cells =>
              rw [hc] at h
              obtain ⟨rows, hrows, hch, hhd, hwd⟩ := ih _ acc' rem h
              refine ⟨{ cells := cells } :: rows, ?_, ?_, ?_, ?_⟩
              · simp [tableRowsSpec, hc, hrows]
              · rw [hch]; simp
              · rw [hhd]
                simp [List.takeWhile_cons, Token.isTheadOpen, Token.isTableClose]
              · intro hw
                have hstep :
                    (if acc.table_width = 0 then cells.length else acc.table_width)
                      = firstNonzero
                          ((acc.children ++ [({ cells := cells } : TableRow)]).map
                            (fun r => r.cells.length)) := by
                  rw [List.map_append, firstNonzero_append, ← hw]
                  by_cases h0 : acc.table_width = 0 <;>
                    by_cases hcl : cells.length = 0 <;>
                      simp [firstNonzero, h0, hcl]
                exact hwd (by simpa using hstep)
      all_goals
        obtain ⟨rows, hrows, hch, hhd, hwd⟩ := ih acc acc' rem h
        refine ⟨rows, by simpa [tableRowsSpec] using hrows, hch, ?_, hwd⟩
        rw [hhd]
        simp [List.takeWhile_cons, Token.isTheadOpen, Token.isTableClose]

/-- C6, counterexample to the claim as stated: when the first row
encountered has zero cells, the truthiness test on table_width lets a
later row set the column count, so the emitted table_width (here 1) is
not the cell count of the first row encountered (here 0). -/
theorem c6_counterexample :
    markdown_to_notion_blocks
        [Token.table_open, Token.tr_open, Token.tr_close, Token.tr_open, Token.td_open,
         Token.inline [Inline.text "a"], Token.td_close, Token.tr_close, Token.table_close]
      = some [Block.table 1 false false
          [{ cells := [] },
           { cells := [[{ content := "a", link := none, annotations := none }]] }]] ∧
    (1 : Nat) ≠ ([] : List (List RichTextObj)).length :=
  ⟨by decide, by decide⟩

/-- C6, amended: the emitted table block's column count equals the cell
count of the first row encountered that has at least one cell (zero when
no row does), later rows never being re-validated against it; the
has-header flag is true exactly when a thead_open token occurs in the
scanned region before the first table_close; and the row nodes are the
rows of that region in document order, with the row-header flag fixed
false. -/
theorem c6_amended (rest : List Token) (blocks : List Block)
    (h : markdown_to_notion_blocks (Token.table_open :: rest) = some blocks) :
    ∃ acc rem more rows,
      scanTableTokens rest { table_width := 0, has_column_header := false, children := [] }
        = some (acc, rem) ∧
      blocks = Block.table acc.table_width acc.has_column_header false acc.children :: more ∧
      tableRowsSpec rest = some rows ∧
      acc.children = rows ∧
      acc.table_width = firstNonzero (rows.map (fun r => r.cells.length)) ∧
      acc.has_column_header
        = (rest.takeWhile (fun t => ! t.isTableClose)).any Token.isTheadOpen := by
  simp only [markdown_to_notion_blocks, List.length_cons, compileLoop] at h
  cases hs : scanTableTokens rest
      { table_width := 0, has_column_header := false, children := [] } with
  | none => rw [hs] at h; simp at h
  | some pr =>
      obtain ⟨acc, rem⟩ := pr
      rw [hs] at h
      dsimp only at h
      cases hm : compileLoop rest.length rem with
      | none => rw [hm] at h; simp at h
      | some more =>
          rw [hm] at h
          simp only [Option.some.injEq] at h
          obtain ⟨rows, hrows, hch, hhd, hwd⟩ := scanTableTokens_spec rest _ acc rem hs
          have hch' : acc.children = rows := by simpa using hch
          have hwd' : acc.table_width = firstNonzero (rows.map (fun r => r.cells.length)) := by
            have := hwd (by simp [firstNonzero])
            rw [hch'] at this
            exact this
          exact ⟨acc, rem, more, rows, rfl, h.symm, hrows, hch', hwd', by simpa using hhd⟩

/-- C6, witness: the amended theorem applied at a concrete one-row
table. -/
theorem c6_witness :
    ∃ acc rem more rows,
      scanTableTokens
          [Token.tr_open, Token.td_open, Token.inline [Inline.text "a"], Token.td_close,
           Token.tr_close, Token.table_close]
          { table_width := 0, has_column_header := false, children := [] }
        = some (acc, rem) ∧
      [Block.table 1 false false
          [{ cells := [[{ content := "a", link := none, annotations := none }]] }]]
        = Block.table acc.table_width acc.has_column_header false acc.children :: more ∧
      tableRowsSpec
          [Token.tr_open, Token.td_open, Token.inline [Inline.text "a"], Token.td_close,
           Token.tr_close, Token.table_close]
        = some rows ∧
      acc.children = rows ∧
      acc.table_width = firstNonzero (rows.map (fun r => r.cells.length)) ∧
      acc.has_column_header
        = ([Token.tr_open, Token.td_open, Token.inline [Inline.text "a"], Token.td_close,
            Token.tr_close, Token.table_close].takeWhile (fun t => ! t.isTableClose)).any
            Token.isTheadOpen :=
  c6_amended
    [Token.tr_open, Token.td_open, Token.inline [Inline.text "a"], Token.td_close,
     Token.tr_close, Token.table_close]
    [Block.table 1 false false
      [{ cells := [[{ content := "a", link := none, annotations := none }]] }]]
    (by decide)

/-- splitDashes returns the decomposition of its input at the first
occurrence of the marker: the input is the prefix, the marker and the
remainder, and no occurrence of the marker starts inside the prefix. -/
theorem splitDashes_spec :
    ∀ s pre post, splitDashes s = some (pre, post) →
      s = pre ++ dashMarker ++ post ∧
      ∀ i, i < pre.length → ¬ ∃ tail, s.drop i = dashMarker ++ tail := by
  intro s
  induction s using splitDashes.induct with
  | case1 rest =>
      intro pre post h
      rw [splitDashes.eq_1] at h
      simp only [Option.some.injEq, Prod.mk.injEq] at h
      obtain ⟨h1, h2⟩ := h
      refine ⟨by rw [← h1, ← h2]; rfl, ?_⟩
      rw [← h1]
      intro i hi
      simp at hi
  | case2 c cs hguard pre' post' hcs ih =>
      intro pre post h
      rw [splitDashes.eq_2 c cs hguard, hcs] at h
      simp only [Option.some.injEq, Prod.mk.injEq] at h
      obtain ⟨h1, h2⟩ := h
      obtain ⟨hdec, hmin⟩ := ih pre' post' hcs
      constructor
      · rw [← h1, ← h2]
        simp [hdec]
      · intro i hi
        rw [← h1] at hi
        cases i with
        | zero =>
            rintro ⟨tail, htail⟩
            simp only [List.drop_zero] at htail
            have hcc : c = '-' ∧ cs = '-' :: '-' :: tail := by
              simpa [dashMarker] using htail
            exact hguard tail hcc.1 hcc.2
        | succ i =>
            simp only [List.length_cons, Nat.succ_lt_succ_iff] at hi
            intro hex
            exact hmin i hi (by simpa using hex)
  | case3 c cs hguard hcs ih =>
      intro pre post h
      rw [splitDashes.eq_2 c cs hguard, hcs] at h
      simp at h
  | case4 =>
      intro pre post h
      rw [splitDashes.eq_3] at h
      simp at h

/-- The occurrence count seen through one step of splitDashes: zero when
the marker is absent, one more than the count of the remainder after the
first occurrence otherwise. -/
theorem countMarker_eq_split :
    ∀ s : List Char,
      countMarker s
        = (match splitDashes s with
           | none => 0
           | some pr => 1 + countMarker pr.2) := by
  intro s
  induction s using splitDashes.induct with
  | case1 rest => rw [countMarker.eq_1, splitDashes.eq_1]
  | case2 c cs hguard pre' post' hcs ih =>
      rw [countMarker.eq_2 c cs hguard, splitDashes.eq_2 c cs hguard, hcs, ih, hcs]
  | case3 c cs hguard hcs ih =>
      rw [countMarker.eq_2 c cs hguard, splitDashes.eq_2 c cs hguard, hcs, ih, hcs]
  | case4 => rw [countMarker.eq_3, splitDashes.eq_3]

/-- C10: the front-matter splitter splits on the marker at most twice.
With fewer than two non-overlapping occurrences of the three-dash marker
it returns the empty metadata and the text unchanged; with two or more it
takes the segment between the first and second occurrence as the metadata
source and the remainder after the second occurrence, left-stripped, as
the body, whether or not the text begins with the marker. -/
theorem c10_front_matter_split (content : List Char) :
    (countMarker content < 2 → parse_markdown_file content = (none, content)) ∧
    (2 ≤ countMarker content →
      ∃ p0 p1 r2,
        content = p0 ++ dashMarker ++ p1 ++ dashMarker ++ r2 ∧
        (∀ i, i < p0.length → ¬ ∃ tail, content.drop i = dashMarker ++ tail) ∧
        (∀ i, i < p1.length →
            ¬ ∃ tail, (p1 ++ dashMarker ++ r2).drop i = dashMarker ++ tail) ∧
        parse_markdown_file content = (some p1, r2.dropWhile Char.isWhitespace)) := by
  cases h0 : splitDashes content with
  | none =>
      have hc : countMarker content = 0 := by rw [countMarker_eq_split, h0]
      constructor
      · intro _
        simp [parse_markdown_file, h0]
      · intro h2
        rw [hc] at h2
        omega
  | some pr0 =>
      obtain ⟨p0, rest1⟩ := pr0
      cases h1 : splitDashes rest1 with
      | none =>
          have hca : countMarker content = 1 + countMarker rest1 := by
            rw [countMarker_eq_split, h0]
          have hcb : countMarker rest1 = 0 := by
            rw [countMarker_eq_split, h1]
          have hc : countMarker content = 1 := by omega
          constructor
          · intro _
            simp [parse_markdown_file, h0, h1]
          · intro h2
            rw [hc] at h2
            omega
      | some pr1 =>
          obtain ⟨p1, r2⟩ := pr1
          have hca : countMarker content = 1 + countMarker rest1 := by
            rw [countMarker_eq_split, h0]
          have hcb : countMarker rest1 = 1 + countMarker r2 := by
            rw [countMarker_eq_split, h1]
          have hc : 2 ≤ countMarker content := by omega
          constructor
          · intro hlt
            omega
          · intro _
            obtain ⟨hd0, hm0⟩ := splitDashes_spec content p0 rest1 h0
            obtain ⟨hd1, hm1⟩ := splitDashes_spec rest1 p1 r2 h1
            refine ⟨p0, p1, r2, ?_, hm0, ?_, ?_⟩
            · rw [hd0, hd1]
              simp
            · rw [← hd1]
              exact hm1
            · simp [parse_markdown_file, h0, h1]

/-- C10, witness: the splitter theorem applied at a concrete text whose
markers do not open the document, discharging the two-occurrence
branch. -/
theorem c10_witness :
    ∃ p0 p1 r2,
      "ab---cd---  ef".toList = p0 ++ dashMarker ++ p1 ++ dashMarker ++ r2 ∧
      (∀ i, i < p0.length →
          ¬ ∃ tail, "ab---cd---  ef".toList.drop i = dashMarker ++ tail) ∧
      (∀ i, i < p1.length →
          ¬ ∃ tail, (p1 ++ dashMarker ++ r2).drop i = dashMarker ++ tail) ∧
      parse_markdown_file "ab---cd---  ef".toList
        = (some p1, r2.dropWhile Char.isWhitespace) :=
  (c10_front_matter_split "ab---cd---  ef".toList).2 (by decide)

end Notionate
